import Mathlib

/-!
Shallow embedding of the `@mightylittle/transaction-log` package
(`MemoryBatchedTransactionLog` and `MemorySimpleTransactionLog`).

Modelling conventions:
* JS numbers used as sequence IDs are modelled as `Int` (the API takes
  arbitrary numbers); timestamps (`performance.now()` values) are modelled as
  an abstract `Nat` supplied as an extra argument to the operations that
  read the clock.
* A method that can `throw` and mutate the receiver is modelled as a function
  returning `State × Option Err`: the returned state is the receiver's state
  at the moment of the throw (every throw in this source happens before any
  field mutation, so an error leaves the entry state).  Methods that never
  write a field (the counts, `replay`, and the range queries) are modelled as
  `Except Err result`.
* `Array.prototype.slice`, `Array.prototype.indexOf` (which uses strict
  equality; each stored `Commit` object is pushed exactly once, so on states
  reachable through the API structural equality coincides with reference
  equality because the stored commits are pairwise distinct), array indexing
  (possibly yielding `undefined`, i.e. `none`) and the truthiness test
  `if (finishId)` are each modelled by a dedicated `js*` helper, faithful to
  ECMAScript semantics on the argument ranges the methods can produce.
* `replay`'s visitor callback is modelled by returning the list of payloads
  passed to the callback, in call order; the `simulateTime` branch is the
  index loop from the source (its `setTimeout` scheduling does not change
  which payloads are visited nor their order).
-/

namespace TransactionLog

/-- A transaction-log entry: creation time plus application data. -/
structure Transaction (T : Type) where
  time : Nat
  data : T
deriving DecidableEq

/-- A batch of transactions: creation time plus the member transaction IDs. -/
structure Commit where
  time : Nat
  transactions : List Int
deriving DecidableEq

/-- A commit as returned from queries: sequence ID, time, and resolved
transactions (array indexing in the source can yield `undefined`, hence
`Option`). -/
structure CommitInfo (T : Type) where
  id : Int
  time : Nat
  transactions : List (Option (Transaction T))
deriving DecidableEq

/-- The error conditions thrown by the source, one per message in
`error-messages.ts` that these two classes throw. -/
inductive Err where
  | invalidSequenceId
  | logClosed
  | logAlreadyOpen
  | logAlreadyClosed
  | logOpenCannotClear
  | bufferEmptyCannotCommit
  | invalidCommit
deriving DecidableEq

/-- JS truthiness of the optional numeric `finishId` argument:
`undefined` and `0` are falsy. -/
def jsTruthy : Option Int → Bool
  | some f => f != 0
  | none => false

/-- The effective end index of `Array.prototype.slice(start, end?)`. -/
def jsSliceEnd (len : Int) : Option Int → Int
  | none => len
  | some e => if e < 0 then max (len + e) 0 else min e len

/-- The effective start index of `Array.prototype.slice(start, end?)`. -/
def jsSliceStart (len start : Int) : Int :=
  if start < 0 then max (len + start) 0 else min start len

/-- `Array.prototype.slice(start, end?)` on a list. -/
def jsSlice (l : List α) (start : Int) (finish? : Option Int) : List α :=
  (l.drop (jsSliceStart l.length start).toNat).take
    (jsSliceEnd l.length finish? - jsSliceStart l.length start).toNat

/-- `Array.prototype.indexOf`: first index of the element, `-1` if absent. -/
def jsIndexOf [DecidableEq α] (l : List α) (a : α) : Int :=
  match l with
  | [] => -1
  | b :: t =>
    if b = a then 0
    else
      let r := jsIndexOf t a
      if r = -1 then -1 else r + 1

/-- JS array indexing `l[i]`: `undefined` (i.e. `none`) when out of range. -/
def jsIndex (l : List α) (i : Int) : Option α :=
  if i < 0 then none else l[i.toNat]?

/-- The visit sequence of the `simulateTime` branch of `replay`: the indexed
loop from the source, collecting each `txn.data` passed to the callback. -/
def replaySimLoop (txns : List (Transaction T)) (i : Nat) : List T :=
  if h : i < txns.length then (txns.get ⟨i, h⟩).data :: replaySimLoop txns (i + 1)
  else []
termination_by txns.length - i
decreasing_by simp_wf; omega

/-- State of `MemoryBatchedTransactionLog`: the three private collections
plus the open flag. -/
structure MemoryBatchedTransactionLog (T : Type) where
  commits : List Commit := []
  transactions : List (Transaction T) := []
  buffer : List (Transaction T) := []
  «open» : Bool := false
deriving DecidableEq

namespace MemoryBatchedTransactionLog

variable {T : Type}

/-- `isOpen()`. -/
def isOpen (log : MemoryBatchedTransactionLog T) : Bool := log.«open»

/-- `open()` (named `openOp` because `open` is a Lean keyword). -/
def openOp (log : MemoryBatchedTransactionLog T) :
    MemoryBatchedTransactionLog T × Option Err :=
  if log.«open» then (log, some .logAlreadyOpen)
  else ({ log with «open» := true }, none)

/-- `close()`. -/
def close (log : MemoryBatchedTransactionLog T) :
    MemoryBatchedTransactionLog T × Option Err :=
  if !log.«open» then (log, some .logAlreadyClosed)
  else ({ log with «open» := false }, none)

/-- `clear()`. -/
def clear (log : MemoryBatchedTransactionLog T) :
    MemoryBatchedTransactionLog T × Option Err :=
  if log.«open» then (log, some .logOpenCannotClear)
  else ({ log with commits := [], transactions := [], buffer := [] }, none)

/-- `append(data)`; `time` is the `performance.now()` reading. -/
def append (log : MemoryBatchedTransactionLog T) (time : Nat) (data : T) :
    MemoryBatchedTransactionLog T × Option Err :=
  if !log.«open» then (log, some .logClosed)
  else ({ log with buffer := log.buffer ++ [{ time := time, data := data }] }, none)

/-- `commit()`; `time` is the `performance.now()` reading. -/
def commit (log : MemoryBatchedTransactionLog T) (time : Nat) :
    MemoryBatchedTransactionLog T × Option Err :=
  if !log.«open» then (log, some .logClosed)
  else if log.buffer.length = 0 then (log, some .bufferEmptyCannotCommit)
  else
    let transactionIds : List Int :=
      (log.buffer.enum).map (fun p => (log.transactions.length : Int) + p.1 + 1)
    let c : Commit := { time := time, transactions := transactionIds }
    ({ log with
        commits := log.commits ++ [c],
        transactions := log.transactions ++ log.buffer,
        buffer := [] }, none)

/-- `countCommits()`. -/
def countCommits (log : MemoryBatchedTransactionLog T) : Except Err Nat :=
  if !log.«open» then .error .logClosed else .ok log.commits.length

/-- `countTransactions()`. -/
def countTransactions (log : MemoryBatchedTransactionLog T) : Except Err Nat :=
  if !log.«open» then .error .logClosed else .ok log.transactions.length

/-- `replay(callback, simulateTime?)`: the payloads passed to the callback,
in call order. -/
def replay (log : MemoryBatchedTransactionLog T) (simulateTime : Bool) :
    Except Err (List T) :=
  if !log.«open» then .error .logClosed
  else if simulateTime then .ok (replaySimLoop log.transactions 0)
  else .ok (log.transactions.map Transaction.data)

/-- `getSeqRangeTransactions(startId, finishId?)`. -/
def getSeqRangeTransactions (log : MemoryBatchedTransactionLog T)
    (startId : Int) (finishId : Option Int) : Except Err (List (Transaction T)) :=
  if !log.«open» then .error .logClosed
  else if startId < 1 then .error .invalidSequenceId
  else if jsTruthy finishId then .ok (jsSlice log.transactions (startId - 1) finishId)
  else .ok (jsSlice log.transactions (startId - 1) none)

/-- The body of the `map` callback inside `getSeqRangeCommits`: resolve one
commit taken from the slice to a `CommitInfo`, or throw `InvalidCommitError`
when `indexOf` fails to find it. -/
def resolveCommit (log : MemoryBatchedTransactionLog T) (c : Commit) :
    Except Err (CommitInfo T) :=
  let commitId : Int := jsIndexOf log.commits c + 1
  if commitId = 0 then .error .invalidCommit
  else
    .ok { id := commitId, time := c.time,
          transactions := c.transactions.map (fun tid => jsIndex log.transactions (tid - 1)) }

/-- `Array.prototype.map` with a callback that can throw, as used by
`getSeqRangeCommits`: left-to-right, the first throw aborts. -/
def resolveCommits (log : MemoryBatchedTransactionLog T) :
    List Commit → Except Err (List (CommitInfo T))
  | [] => .ok []
  | c :: rest =>
    match log.resolveCommit c with
    | .error e => .error e
    | .ok ci =>
      match log.resolveCommits rest with
      | .error e => .error e
      | .ok cis => .ok (ci :: cis)

/-- The value `resolveCommit` produces when the `indexOf` lookup succeeds
(which it always does for a commit taken from the stored collection). -/
def resolveOne (log : MemoryBatchedTransactionLog T) (c : Commit) : CommitInfo T :=
  { id := jsIndexOf log.commits c + 1, time := c.time,
    transactions := c.transactions.map (fun tid => jsIndex log.transactions (tid - 1)) }

/-- `getSeqRangeCommits(startId, finishId?)`. -/
def getSeqRangeCommits (log : MemoryBatchedTransactionLog T)
    (startId : Int) (finishId : Option Int) : Except Err (List (CommitInfo T)) :=
  if !log.«open» then .error .logClosed
  else if startId < 1 then .error .invalidSequenceId
  else if jsTruthy finishId then log.resolveCommits (jsSlice log.commits (startId - 1) finishId)
  else log.resolveCommits (jsSlice log.commits (startId - 1) none)

/-- The committed transaction record referenced by global 1-based sequence
ID `tid`, exactly as the source resolves it: `this.transactions[tid - 1]`. -/
def txnAt (log : MemoryBatchedTransactionLog T) (tid : Int) :
    Option (Transaction T) :=
  jsIndex log.transactions (tid - 1)

/-- States reachable from a fresh `new MemoryBatchedTransactionLog()` by any
sequence of API calls.  The read operations (`isOpen`, the counts, `replay`,
and the range queries) contain no field writes in the source and are modelled
as pure functions, so they do not appear as steps: they cannot change the
state. -/
inductive Reachable : MemoryBatchedTransactionLog T → Prop where
  | init : Reachable ⟨[], [], [], false⟩
  | openStep {log : MemoryBatchedTransactionLog T} :
      Reachable log → Reachable log.openOp.1
  | closeStep {log : MemoryBatchedTransactionLog T} :
      Reachable log → Reachable log.close.1
  | clearStep {log : MemoryBatchedTransactionLog T} :
      Reachable log → Reachable log.clear.1
  | appendStep {log : MemoryBatchedTransactionLog T} (time : Nat) (data : T) :
      Reachable log → Reachable (log.append time data).1
  | commitStep {log : MemoryBatchedTransactionLog T} (time : Nat) :
      Reachable log → Reachable (log.commit time).1

end MemoryBatchedTransactionLog

/-- State of `MemorySimpleTransactionLog`: committed transactions plus the
open flag (no commits, no buffer). -/
structure MemorySimpleTransactionLog (T : Type) where
  transactions : List (Transaction T) := []
  «open» : Bool := false
deriving DecidableEq

namespace MemorySimpleTransactionLog

variable {T : Type}

/-- `isOpen()`. -/
def isOpen (log : MemorySimpleTransactionLog T) : Bool := log.«open»

/-- `open()`. -/
def openOp (log : MemorySimpleTransactionLog T) :
    MemorySimpleTransactionLog T × Option Err :=
  if log.«open» then (log, some .logAlreadyOpen)
  else ({ log with «open» := true }, none)

/-- `close()`. -/
def close (log : MemorySimpleTransactionLog T) :
    MemorySimpleTransactionLog T × Option Err :=
  if !log.«open» then (log, some .logAlreadyClosed)
  else ({ log with «open» := false }, none)

/-- `clear()`. -/
def clear (log : MemorySimpleTransactionLog T) :
    MemorySimpleTransactionLog T × Option Err :=
  if log.«open» then (log, some .logOpenCannotClear)
  else ({ log with transactions := [] }, none)

/-- `countTransactions()`. -/
def countTransactions (log : MemorySimpleTransactionLog T) : Except Err Nat :=
  if !log.«open» then .error .logClosed else .ok log.transactions.length

/-- `append(data)`: commits the entry immediately. -/
def append (log : MemorySimpleTransactionLog T) (time : Nat) (data : T) :
    MemorySimpleTransactionLog T × Option Err :=
  if !log.«open» then (log, some .logClosed)
  else ({ log with transactions := log.transactions ++ [{ time := time, data := data }] }, none)

/-- `replay(callback, simulateTime?)`: the payloads passed to the callback,
in call order. -/
def replay (log : MemorySimpleTransactionLog T) (simulateTime : Bool) :
    Except Err (List T) :=
  if !log.«open» then .error .logClosed
  else if simulateTime then .ok (replaySimLoop log.transactions 0)
  else .ok (log.transactions.map Transaction.data)

/-- `getSeqRangeTransactions(startId, finishId?)`. -/
def getSeqRangeTransactions (log : MemorySimpleTransactionLog T)
    (startId : Int) (finishId : Option Int) : Except Err (List (Transaction T)) :=
  if !log.«open» then .error .logClosed
  else if startId < 1 then .error .invalidSequenceId
  else if jsTruthy finishId then .ok (jsSlice log.transactions (startId - 1) finishId)
  else .ok (jsSlice log.transactions (startId - 1) none)

end MemorySimpleTransactionLog

/-- The list of `n` consecutive integers starting at `s` (ascending by 1).
Used to state contiguity of the transaction IDs recorded on a commit. -/
def rangeInt : Int → Nat → List Int
  | _, 0 => []
  | s, n + 1 => s :: rangeInt (s + 1) n

/-- The entries of `l` whose 1-based sequence ID lies in the inclusive range
from `s` to `e`, in ID order: the spec's description of the result of a
sequence-range query.  (`take e` keeps IDs at most `e`; `drop (s - 1)` then
removes IDs below `s`.) -/
def idRange (l : List α) (s e : Nat) : List α := (l.take e).drop (s - 1)

/-- Structural invariant of the batched log: the transaction-ID lists of the
stored commits, concatenated in commit order, are exactly the sequence
`1, 2, ..., countTransactions`; every stored commit groups at least one
transaction; and the stored commits are pairwise distinct records. -/
def MemoryBatchedTransactionLog.Wf (log : MemoryBatchedTransactionLog T) : Prop :=
  (log.commits.map Commit.transactions).flatten = rangeInt 1 log.transactions.length
  ∧ (∀ c ∈ log.commits, c.transactions ≠ [])
  ∧ log.commits.Nodup

/-- A closed batched log in its initial state. -/
def sampleClosedB : MemoryBatchedTransactionLog Nat := ⟨[], [], [], false⟩

/-- A closed simple log in its initial state. -/
def sampleClosedS : MemorySimpleTransactionLog Nat := ⟨[], false⟩

/-- An open batched log holding one buffered (uncommitted) transaction. -/
def sampleOpenBufB : MemoryBatchedTransactionLog Nat := ⟨[], [], [⟨3, 42⟩], true⟩

/-- An open batched log with empty collections. -/
def sampleOpenEmptyB : MemoryBatchedTransactionLog Nat := ⟨[], [], [], true⟩

/-- An open simple log holding one committed transaction. -/
def sampleOpenS : MemorySimpleTransactionLog Nat := ⟨[⟨0, 7⟩], true⟩

/-- A closed batched log still holding a commit, a committed transaction and
a buffered entry. -/
def sampleDirtyClosedB : MemoryBatchedTransactionLog Nat :=
  ⟨[⟨2, [1]⟩], [⟨1, 3⟩], [⟨5, 4⟩], false⟩

/-- The batched log produced by `open(); append(7); append(8); commit()`
(with clock readings 5, 6 and 9): one commit grouping transactions 1 and 2. -/
def sampleRunB : MemoryBatchedTransactionLog Nat :=
  ((((⟨[], [], [], false⟩ : MemoryBatchedTransactionLog Nat).openOp.1.append 5 7).1.append
      6 8).1.commit 9).1

theorem length_rangeInt (s : Int) : ∀ n : Nat, (rangeInt s n).length = n := by
  intro n
  induction n generalizing s with
  | zero => simp [rangeInt]
  | succ n ih => simp [rangeInt, ih]

theorem mem_rangeInt {x : Int} : ∀ {n : Nat} {s : Int},
    x ∈ rangeInt s n ↔ s ≤ x ∧ x < s + n := by
  intro n
  induction n with
  | zero => intro s; simp only [rangeInt, List.not_mem_nil, false_iff]; omega
  | succ n ih => intro s; simp only [rangeInt, List.mem_cons, ih]; omega

theorem rangeInt_ne_nil {s : Int} {n : Nat} (h : n ≠ 0) : rangeInt s n ≠ [] := by
  cases n with
  | zero => omega
  | succ n => simp [rangeInt]

theorem rangeInt_append (m : Nat) : ∀ (s : Int) (n : Nat),
    rangeInt s m ++ rangeInt (s + m) n = rangeInt s (m + n) := by
  induction m with
  | zero => intro s n; simp [rangeInt]
  | succ m ih =>
    intro s n
    have h1 : s + ((m + 1 : Nat) : Int) = (s + 1) + (m : Int) := by push_cast; ring
    have h2 : m + 1 + n = (m + n) + 1 := by omega
    rw [h2]
    simp only [rangeInt, List.cons_append, h1, ih]

theorem append_eq_rangeInt : ∀ (l₁ l₂ : List Int) (s : Int) (n : Nat),
    l₁ ++ l₂ = rangeInt s n →
    l₁ = rangeInt s l₁.length ∧ l₂ = rangeInt (s + l₁.length) (n - l₁.length)
      ∧ l₁.length ≤ n := by
  intro l₁
  induction l₁ with
  | nil =>
    intro l₂ s n h
    refine ⟨rfl, ?_, by simp⟩
    simpa using h
  | cons a t ih =>
    intro l₂ s n h
    cases n with
    | zero => simp [rangeInt] at h
    | succ m =>
      simp only [rangeInt, List.cons_append, List.cons.injEq] at h
      obtain ⟨ha, ht⟩ := h
      obtain ⟨ih1, ih2, ih3⟩ := ih l₂ (s + 1) m ht
      have h1 : s + ((t.length + 1 : Nat) : Int) = (s + 1) + (t.length : Int) := by
        push_cast; ring
      refine ⟨?_, ?_, by simp only [List.length_cons]; omega⟩
      · rw [List.length_cons]
        show a :: t = s :: rangeInt (s + 1) t.length
        rw [ha]
        exact congrArg (List.cons s) ih1
      · simp only [List.length_cons, h1, ih2]
        congr 1
        omega

theorem flatten_eq_rangeInt : ∀ (cs : List (List Int)) (s : Int) (n : Nat),
    cs.flatten = rangeInt s n →
    ∀ c ∈ cs, ∃ t : Int, s ≤ t ∧ c = rangeInt t c.length
      ∧ t + c.length ≤ s + n := by
  intro cs
  induction cs with
  | nil => intro s n _ c hc; simp at hc
  | cons c₀ rest ih =>
    intro s n h c hc
    rw [List.flatten_cons] at h
    obtain ⟨h0, hrest, hlen⟩ := append_eq_rangeInt c₀ rest.flatten s n h
    rcases List.mem_cons.1 hc with rfl | hc
    · exact ⟨s, le_refl s, h0, by omega⟩
    · obtain ⟨t, ht1, ht2, ht3⟩ := ih (s + c₀.length) (n - c₀.length) hrest c hc
      refine ⟨t, by omega, ht2, by omega⟩

theorem enumFrom_map_rangeInt {α : Type _} (N : Int) : ∀ (l : List α) (s : Nat),
    (l.enumFrom s).map (fun p => N + (p.1 : Int) + 1) = rangeInt (N + s + 1) l.length := by
  intro l
  induction l with
  | nil => intro s; simp [rangeInt]
  | cons a t ih =>
    intro s
    have h1 : N + ((s + 1 : Nat) : Int) + 1 = (N + (s : Int) + 1) + 1 := by push_cast; ring
    simp only [List.enumFrom_cons, List.map_cons, List.length_cons, rangeInt]
    rw [ih (s + 1), h1]

theorem enum_map_rangeInt {α : Type _} (N : Int) (l : List α) :
    l.enum.map (fun p => N + (p.1 : Int) + 1) = rangeInt (N + 1) l.length := by
  rw [List.enum_eq_enumFrom]
  simpa using enumFrom_map_rangeInt N l 0

theorem jsIndexOf_nonneg [DecidableEq α] : ∀ {l : List α} {a : α},
    a ∈ l → 0 ≤ jsIndexOf l a := by
  intro l
  induction l with
  | nil => intro a h; simp at h
  | cons b t ih =>
    intro a h
    by_cases hba : b = a
    · simp [jsIndexOf, hba]
    · have ht : a ∈ t := by
        rcases List.mem_cons.1 h with rfl | ht
        · exact absurd rfl hba
        · exact ht
      have hr := ih ht
      have hne : jsIndexOf t a ≠ -1 := by omega
      simp only [jsIndexOf, if_neg hba, if_neg hne]
      omega

theorem jsIndexOf_getElem? [DecidableEq α] : ∀ {l : List α}, l.Nodup →
    ∀ {i : Nat} {a : α}, l[i]? = some a → jsIndexOf l a = (i : Int) := by
  intro l
  induction l with
  | nil => intro _ i a h; simp at h
  | cons b t ih =>
    intro hnd i a h
    obtain ⟨hbt, hndt⟩ := List.nodup_cons.1 hnd
    cases i with
    | zero =>
      simp only [List.getElem?_cons_zero, Option.some.injEq] at h
      simp [jsIndexOf, h]
    | succ i =>
      rw [List.getElem?_cons_succ] at h
      have hat : a ∈ t := List.getElem?_mem h
      have hba : b ≠ a := fun hba => hbt (hba ▸ hat)
      have hr : jsIndexOf t a = (i : Int) := ih hndt h
      have hne : jsIndexOf t a ≠ -1 := by omega
      simp only [jsIndexOf, if_neg hba, if_neg hne, hr]
      push_cast
      ring

theorem jsSlice_none_eq (l : List α) (s : Int) (hs : 0 ≤ s) :
    jsSlice l s none = l.drop s.toNat := by
  simp only [jsSlice, jsSliceStart, jsSliceEnd, if_neg (by omega : ¬ s < 0)]
  by_cases h : s ≤ (l.length : Int)
  · rw [min_eq_left h]
    apply List.take_of_length_le
    rw [List.length_drop]
    omega
  · rw [min_eq_right (by omega : (l.length : Int) ≤ s)]
    have h1 : ((l.length : Int)).toNat = l.length := by omega
    have h2 : l.drop s.toNat = [] := List.drop_eq_nil_of_le (by omega)
    simp [h1, h2, List.drop_length]

theorem jsSlice_some_eq (l : List α) (s f : Int) (hs : 0 ≤ s) (hf : 0 ≤ f) :
    jsSlice l s (some f) = (l.drop s.toNat).take (f.toNat - s.toNat) := by
  simp only [jsSlice, jsSliceStart, jsSliceEnd, if_neg (by omega : ¬ s < 0),
    if_neg (by omega : ¬ f < 0)]
  by_cases h : s ≤ (l.length : Int)
  · rw [min_eq_left h]
    by_cases h2 : f ≤ (l.length : Int)
    · rw [min_eq_left h2]
      congr 1
      omega
    · rw [min_eq_right (by omega : (l.length : Int) ≤ f)]
      rw [List.take_of_length_le (by rw [List.length_drop]; omega),
        List.take_of_length_le (by rw [List.length_drop]; omega)]
  · rw [min_eq_right (by omega : (l.length : Int) ≤ s)]
    have h1 : ((l.length : Int)).toNat = l.length := by omega
    have h2 : l.drop s.toNat = [] := List.drop_eq_nil_of_le (by omega)
    simp [h1, h2, List.drop_length]

theorem replaySimLoop_drop {T : Type} (l : List (Transaction T)) :
    ∀ (n i : Nat), l.length - i = n →
    replaySimLoop l i = (l.drop i).map Transaction.data := by
  intro n
  induction n with
  | zero =>
    intro i hi
    rw [replaySimLoop, dif_neg (by omega : ¬ i < l.length)]
    rw [List.drop_eq_nil_of_le (by omega)]
    rfl
  | succ n ihn =>
    intro i hi
    have h : i < l.length := by omega
    rw [replaySimLoop, dif_pos h, ihn (i + 1) (by omega),
      List.drop_eq_getElem_cons h, List.map_cons]
    rfl

theorem replaySimLoop_eq {T : Type} (l : List (Transaction T)) :
    replaySimLoop l 0 = l.map Transaction.data := by
  rw [replaySimLoop_drop l (l.length - 0) 0 rfl]
  rfl

theorem idRange_eq_drop_take (l : List α) (s e : Nat) :
    idRange l s e = (l.drop (s - 1)).take (e - (s - 1)) :=
  List.drop_take e (s - 1) l

namespace MemoryBatchedTransactionLog

variable {T : Type}

theorem wf_openOp {log : MemoryBatchedTransactionLog T} (h : log.Wf) : log.openOp.1.Wf := by
  unfold openOp
  split
  · exact h
  · exact h

theorem wf_close {log : MemoryBatchedTransactionLog T} (h : log.Wf) : log.close.1.Wf := by
  unfold close
  split
  · exact h
  · exact h

theorem wf_clear {log : MemoryBatchedTransactionLog T} (h : log.Wf) : log.clear.1.Wf := by
  unfold clear
  split
  · exact h
  · exact ⟨rfl, by simp, List.nodup_nil⟩

theorem wf_append {log : MemoryBatchedTransactionLog T} (h : log.Wf) (t : Nat) (d : T) :
    (log.append t d).1.Wf := by
  unfold append
  split
  · exact h
  · exact h

theorem wf_commit {log : MemoryBatchedTransactionLog T} (h : log.Wf) (t : Nat) :
    (log.commit t).1.Wf := by
  obtain ⟨hflat, hne, hnd⟩ := h
  by_cases ho : (!log.«open») = true
  · simp only [commit, if_pos ho]
    exact ⟨hflat, hne, hnd⟩
  · by_cases hb : log.buffer.length = 0
    · simp only [commit, if_neg ho, if_pos hb]
      exact ⟨hflat, hne, hnd⟩
    · simp only [commit, if_neg ho, if_neg hb]
      have hids : (log.buffer.enum).map
            (fun p => (log.transactions.length : Int) + (p.1 : Int) + 1)
          = rangeInt ((log.transactions.length : Int) + 1) log.buffer.length :=
        enum_map_rangeInt _ _
      have hcomm : ((log.transactions.length : Int)) + 1 = 1 + (log.transactions.length : Int) := by
        ring
      refine ⟨?_, ?_, ?_⟩
      · rw [List.map_append, List.flatten_append]
        simp only [List.map_cons, List.map_nil, List.flatten_cons, List.flatten_nil,
          List.append_nil]
        rw [hflat, hids, hcomm, rangeInt_append, List.length_append]
      · intro c hc
        rcases List.mem_append.1 hc with hold | hnew
        · exact hne c hold
        · rcases List.mem_singleton.1 hnew with rfl
          show (log.buffer.enum).map _ ≠ []
          rw [hids]
          exact rangeInt_ne_nil hb
      · refine List.nodup_append.2 ⟨hnd, by simp, ?_⟩
        intro a ha hnew
        rcases List.mem_singleton.1 hnew with rfl
        have hmem : ((log.transactions.length : Int) + 1) ∈
            (log.buffer.enum).map
              (fun p => (log.transactions.length : Int) + (p.1 : Int) + 1) := by
          rw [hids]
          exact mem_rangeInt.2 ⟨le_refl _, by omega⟩
        have hflatmem : ((log.transactions.length : Int) + 1) ∈
            (log.commits.map Commit.transactions).flatten :=
          List.mem_flatten_of_mem (List.mem_map_of_mem Commit.transactions ha) hmem
        rw [hflat] at hflatmem
        have := mem_rangeInt.1 hflatmem
        omega

theorem reachable_wf {log : MemoryBatchedTransactionLog T} (h : Reachable log) : log.Wf := by
  induction h with
  | init => exact ⟨rfl, by simp, List.nodup_nil⟩
  | openStep _ ih => exact wf_openOp ih
  | closeStep _ ih => exact wf_close ih
  | clearStep _ ih => exact wf_clear ih
  | appendStep t d _ ih => exact wf_append ih t d
  | commitStep t _ ih => exact wf_commit ih t

theorem wf_commit_contiguous {log : MemoryBatchedTransactionLog T} (h : log.Wf)
    {c : Commit} (hc : c ∈ log.commits) :
    ∃ t : Int, 1 ≤ t ∧ c.transactions = rangeInt t c.transactions.length
      ∧ t + c.transactions.length ≤ 1 + log.transactions.length := by
  obtain ⟨t, ht1, ht2, ht3⟩ := flatten_eq_rangeInt (log.commits.map Commit.transactions) 1
    log.transactions.length h.1 c.transactions (List.mem_map_of_mem Commit.transactions hc)
  exact ⟨t, ht1, ht2, ht3⟩

theorem wf_tid_bounds {log : MemoryBatchedTransactionLog T} (h : log.Wf)
    {c : Commit} (hc : c ∈ log.commits) {tid : Int} (htid : tid ∈ c.transactions) :
    1 ≤ tid ∧ tid ≤ (log.transactions.length : Int) := by
  obtain ⟨t, ht1, ht2, ht3⟩ := wf_commit_contiguous h hc
  rw [ht2] at htid
  have := mem_rangeInt.1 htid
  omega

theorem txnAt_isSome {log : MemoryBatchedTransactionLog T} {tid : Int}
    (h1 : 1 ≤ tid) (h2 : tid ≤ (log.transactions.length : Int)) :
    ∃ txn, log.txnAt tid = some txn := by
  unfold txnAt jsIndex
  rw [if_neg (by omega : ¬ tid - 1 < 0)]
  have hlt : (tid - 1).toNat < log.transactions.length := by omega
  exact ⟨_, List.getElem?_eq_getElem hlt⟩

theorem resolveCommit_mem_ok {log : MemoryBatchedTransactionLog T} {c : Commit}
    (hc : c ∈ log.commits) : log.resolveCommit c = .ok (log.resolveOne c) := by
  have h0 := jsIndexOf_nonneg hc
  unfold resolveCommit resolveOne
  rw [if_neg (by omega : ¬ jsIndexOf log.commits c + 1 = 0)]

theorem resolveCommits_ok_of_subset (log : MemoryBatchedTransactionLog T) :
    ∀ {l : List Commit}, (∀ c ∈ l, c ∈ log.commits) →
    log.resolveCommits l = .ok (l.map log.resolveOne) := by
  intro l
  induction l with
  | nil => intro _; rfl
  | cons c rest ih =>
    intro h
    have hc := h c (List.mem_cons_self c rest)
    have hrest := ih (fun x hx => h x (List.mem_cons_of_mem c hx))
    simp only [resolveCommits, resolveCommit_mem_ok hc, hrest, List.map_cons]

end MemoryBatchedTransactionLog

theorem jsSlice_subset (l : List α) (s : Int) (fin? : Option Int) :
    ∀ c ∈ jsSlice l s fin?, c ∈ l := by
  intro c hc
  unfold jsSlice at hc
  exact List.mem_of_mem_drop (List.mem_of_mem_take hc)

theorem idRange_nil_of_gt (l : List α) {s : Nat} (e : Nat) (h : l.length < s) :
    idRange l s e = [] := by
  unfold idRange
  apply List.drop_eq_nil_of_le
  rw [List.length_take]
  omega

theorem jsSlice_none_idRange (l : List α) (s : Int) (h : 1 ≤ s) :
    jsSlice l (s - 1) none = idRange l s.toNat l.length := by
  rw [jsSlice_none_eq l (s - 1) (by omega), idRange_eq_drop_take,
    List.take_of_length_le (by rw [List.length_drop])]
  congr 1
  omega

theorem jsSlice_some_idRange (l : List α) (s f : Int) (h : 1 ≤ s) (hf : 1 ≤ f) :
    jsSlice l (s - 1) (some f) = idRange l s.toNat f.toNat := by
  rw [jsSlice_some_eq l (s - 1) f (by omega) (by omega), idRange_eq_drop_take]
  have h1 : (s - 1).toNat = s.toNat - 1 := by omega
  rw [h1]

/-- C1: on an open batched log with a non-empty buffer, `commit()` succeeds;
afterwards `countCommits()` returns one more than before, `countTransactions()`
returns the prior count plus the buffered count, the buffer is empty, and the
newly created commit (appended at the end of the committed-commits collection)
records exactly the contiguous ascending transaction-ID range from
`priorTxnCount + 1` to `priorTxnCount + bufferLen`, in append order. -/
theorem commit_success_spec {T : Type} (log : MemoryBatchedTransactionLog T) (t : Nat)
    (ho : log.«open» = true) (hb : log.buffer ≠ []) :
    (log.commit t).2 = none
    ∧ (log.commit t).1.countCommits = .ok (log.commits.length + 1)
    ∧ (log.commit t).1.countTransactions = .ok (log.transactions.length + log.buffer.length)
    ∧ (log.commit t).1.buffer = []
    ∧ (log.commit t).1.commits = log.commits
        ++ [⟨t, rangeInt ((log.transactions.length : Int) + 1) log.buffer.length⟩] := by
  have hb0 : ¬ log.buffer.length = 0 := by simpa [List.length_eq_zero] using hb
  have hids := enum_map_rangeInt (log.transactions.length : Int) log.buffer
  simp [MemoryBatchedTransactionLog.commit, MemoryBatchedTransactionLog.countCommits,
    MemoryBatchedTransactionLog.countTransactions, ho, hb0, hids]

/-- Witness for C1 at a concrete log: one buffered transaction, none committed. -/
theorem commit_success_spec_witness :
    (sampleOpenBufB.commit 9).2 = none
    ∧ (sampleOpenBufB.commit 9).1.countCommits = .ok (sampleOpenBufB.commits.length + 1)
    ∧ (sampleOpenBufB.commit 9).1.countTransactions
        = .ok (sampleOpenBufB.transactions.length + sampleOpenBufB.buffer.length)
    ∧ (sampleOpenBufB.commit 9).1.buffer = []
    ∧ (sampleOpenBufB.commit 9).1.commits = sampleOpenBufB.commits
        ++ [⟨9, rangeInt ((sampleOpenBufB.transactions.length : Int) + 1)
              sampleOpenBufB.buffer.length⟩] :=
  commit_success_spec sampleOpenBufB 9 rfl (by decide)

/-- C7: `commit()` on an open batched log whose buffer is empty fails with the
empty-buffer error, and the returned state (commits, transactions, buffer and
open flag) is exactly the state before the call. -/
theorem commit_empty_buffer_spec {T : Type} (log : MemoryBatchedTransactionLog T)
    (ho : log.«open» = true) (hb : log.buffer = []) (t : Nat) :
    log.commit t = (log, some .bufferEmptyCannotCommit) := by
  simp [MemoryBatchedTransactionLog.commit, ho, hb]

/-- Witness for C7 at a concrete open log with empty buffer. -/
theorem commit_empty_buffer_spec_witness :
    sampleOpenEmptyB.commit 5 = (sampleOpenEmptyB, some .bufferEmptyCannotCommit) :=
  commit_empty_buffer_spec sampleOpenEmptyB rfl rfl 5

/-- C6: on a closed log (either variant) every one of `append`, `commit`,
`countCommits`, `countTransactions`, `replay`, `getSeqRangeTransactions` and
`getSeqRangeCommits` fails with the log-closed error; the mutating operations
return the entry state unchanged, and the read operations are modelled as
pure functions of the state (the source methods contain no field writes), so
nothing is mutated. -/
theorem closed_ops_fail_spec {T : Type} (lb : MemoryBatchedTransactionLog T)
    (ls : MemorySimpleTransactionLog T) (hb : lb.«open» = false) (hs : ls.«open» = false)
    (t : Nat) (d : T) (sim : Bool) (sId : Int) (fin? : Option Int) :
    lb.append t d = (lb, some .logClosed)
    ∧ lb.commit t = (lb, some .logClosed)
    ∧ lb.countCommits = .error .logClosed
    ∧ lb.countTransactions = .error .logClosed
    ∧ lb.replay sim = .error .logClosed
    ∧ lb.getSeqRangeTransactions sId fin? = .error .logClosed
    ∧ lb.getSeqRangeCommits sId fin? = .error .logClosed
    ∧ ls.append t d = (ls, some .logClosed)
    ∧ ls.countTransactions = .error .logClosed
    ∧ ls.replay sim = .error .logClosed
    ∧ ls.getSeqRangeTransactions sId fin? = .error .logClosed := by
  refine ⟨?_, ?_, ?_, ?_, ?_, ?_, ?_, ?_, ?_, ?_, ?_⟩ <;>
    simp [MemoryBatchedTransactionLog.append, MemoryBatchedTransactionLog.commit,
      MemoryBatchedTransactionLog.countCommits, MemoryBatchedTransactionLog.countTransactions,
      MemoryBatchedTransactionLog.replay, MemoryBatchedTransactionLog.getSeqRangeTransactions,
      MemoryBatchedTransactionLog.getSeqRangeCommits, MemorySimpleTransactionLog.append,
      MemorySimpleTransactionLog.countTransactions, MemorySimpleTransactionLog.replay,
      MemorySimpleTransactionLog.getSeqRangeTransactions, hb, hs]

/-- Witness for C6 at concrete closed logs of both variants. -/
theorem closed_ops_fail_spec_witness :
    sampleClosedB.append 1 2 = (sampleClosedB, some .logClosed)
    ∧ sampleClosedB.commit 1 = (sampleClosedB, some .logClosed)
    ∧ sampleClosedB.countCommits = .error .logClosed
    ∧ sampleClosedB.countTransactions = .error .logClosed
    ∧ sampleClosedB.replay true = .error .logClosed
    ∧ sampleClosedB.getSeqRangeTransactions 1 (some 2) = .error .logClosed
    ∧ sampleClosedB.getSeqRangeCommits 1 (some 2) = .error .logClosed
    ∧ sampleClosedS.append 1 2 = (sampleClosedS, some .logClosed)
    ∧ sampleClosedS.countTransactions = .error .logClosed
    ∧ sampleClosedS.replay true = .error .logClosed
    ∧ sampleClosedS.getSeqRangeTransactions 1 (some 2) = .error .logClosed :=
  closed_ops_fail_spec sampleClosedB sampleClosedS rfl rfl 1 2 true 1 (some 2)

/-- C5: on an open log (either variant) `replay` passes to the visitor exactly
the committed transactions' payloads, once each, in committed order, whatever
the value of `simulateTime`; the result is a function of the committed
transactions only, so buffered (uncommitted) transactions are never visited
(shown for the batched variant by replacing the buffer with anything). -/
theorem replay_visits_spec {T : Type} (lb : MemoryBatchedTransactionLog T)
    (ls : MemorySimpleTransactionLog T) (hb : lb.«open» = true) (hs : ls.«open» = true)
    (sim : Bool) (buf : List (Transaction T)) :
    lb.replay sim = .ok (lb.transactions.map Transaction.data)
    ∧ ({ lb with buffer := buf } : MemoryBatchedTransactionLog T).replay sim = lb.replay sim
    ∧ ls.replay sim = .ok (ls.transactions.map Transaction.data) := by
  refine ⟨?_, rfl, ?_⟩
  · cases sim
    · simp [MemoryBatchedTransactionLog.replay, hb]
    · simp [MemoryBatchedTransactionLog.replay, hb, replaySimLoop_eq]
  · cases sim
    · simp [MemorySimpleTransactionLog.replay, hs]
    · simp [MemorySimpleTransactionLog.replay, hs, replaySimLoop_eq]

/-- Witness for C5 at concrete open logs, with time simulation requested. -/
theorem replay_visits_spec_witness :
    sampleRunB.replay true = .ok (sampleRunB.transactions.map Transaction.data)
    ∧ ({ sampleRunB with buffer := [⟨1, 1⟩] } :
        MemoryBatchedTransactionLog Nat).replay true = sampleRunB.replay true
    ∧ sampleOpenS.replay true = .ok (sampleOpenS.transactions.map Transaction.data) :=
  replay_visits_spec sampleRunB sampleOpenS rfl rfl true [⟨1, 1⟩]

/-- C8: `clear()` on an open batched log fails with the log-open error and
changes nothing; on a closed batched log it succeeds, resets commits,
transactions and buffer to empty (so both counts are 0) while the log stays
closed, and after reopening the first append and commit are numbered from 1
again: the first new commit sits at commit position 1 and references exactly
transaction ID 1. -/
theorem clear_spec {T : Type} (lopen lclosed : MemoryBatchedTransactionLog T)
    (ho : lopen.«open» = true) (hc : lclosed.«open» = false) (t1 t2 : Nat) (d : T) :
    lopen.clear = (lopen, some .logOpenCannotClear)
    ∧ lclosed.clear.2 = none
    ∧ lclosed.clear.1.commits = []
    ∧ lclosed.clear.1.transactions = []
    ∧ lclosed.clear.1.buffer = []
    ∧ lclosed.clear.1.«open» = false
    ∧ (((lclosed.clear.1.openOp.1.append t1 d).1.commit t2).1).commits = [⟨t2, [1]⟩]
    ∧ (((lclosed.clear.1.openOp.1.append t1 d).1.commit t2).1).transactions = [⟨t1, d⟩] := by
  refine ⟨?_, ?_, ?_, ?_, ?_, ?_, ?_, ?_⟩ <;>
    simp [MemoryBatchedTransactionLog.clear, MemoryBatchedTransactionLog.openOp,
      MemoryBatchedTransactionLog.append, MemoryBatchedTransactionLog.commit,
      ho, hc, List.enum_eq_enumFrom]

/-- Witness for C8 at concrete logs: an open one and a closed one that already
holds a commit, a transaction and a buffered entry, all wiped by clear. -/
theorem clear_spec_witness :
    sampleOpenEmptyB.clear = (sampleOpenEmptyB, some .logOpenCannotClear)
    ∧ sampleDirtyClosedB.clear.2 = none
    ∧ sampleDirtyClosedB.clear.1.commits = []
    ∧ sampleDirtyClosedB.clear.1.transactions = []
    ∧ sampleDirtyClosedB.clear.1.buffer = []
    ∧ sampleDirtyClosedB.clear.1.«open» = false
    ∧ (((sampleDirtyClosedB.clear.1.openOp.1.append 4 10).1.commit 6).1).commits
        = [⟨6, [1]⟩]
    ∧ (((sampleDirtyClosedB.clear.1.openOp.1.append 4 10).1.commit 6).1).transactions
        = [⟨4, 10⟩] :=
  clear_spec sampleOpenEmptyB sampleDirtyClosedB rfl rfl 4 6 10

/-- C10: with a `finishId` of 0 (falsy in JS), both range queries behave
exactly as if `finishId` were omitted, returning everything from `startId`
through the end of the collection instead of the empty list that the
inclusive range from `startId` to 0 would denote. -/
theorem zero_finish_as_omitted {T : Type} (lb : MemoryBatchedTransactionLog T)
    (ls : MemorySimpleTransactionLog T) (hb : lb.«open» = true) (hs : ls.«open» = true)
    (s : Int) (hge : 1 ≤ s) :
    lb.getSeqRangeTransactions s (some 0) = lb.getSeqRangeTransactions s none
    ∧ lb.getSeqRangeTransactions s (some 0) = .ok (lb.transactions.drop (s.toNat - 1))
    ∧ lb.getSeqRangeCommits s (some 0) = lb.getSeqRangeCommits s none
    ∧ ls.getSeqRangeTransactions s (some 0) = ls.getSeqRangeTransactions s none
    ∧ ls.getSeqRangeTransactions s (some 0) = .ok (ls.transactions.drop (s.toNat - 1)) := by
  have hdrop : ∀ l : List (Transaction T), jsSlice l (s - 1) none = l.drop (s.toNat - 1) := by
    intro l
    rw [jsSlice_none_eq l (s - 1) (by omega)]
    congr 1
    omega
  refine ⟨?_, ?_, ?_, ?_, ?_⟩ <;>
    simp [MemoryBatchedTransactionLog.getSeqRangeTransactions,
      MemoryBatchedTransactionLog.getSeqRangeCommits,
      MemorySimpleTransactionLog.getSeqRangeTransactions,
      jsTruthy, hb, hs, hdrop, hge, (by omega : ¬ s < 1)]

/-- Witness for C10 at concrete open logs. -/
theorem zero_finish_as_omitted_witness :
    sampleRunB.getSeqRangeTransactions 1 (some 0) = sampleRunB.getSeqRangeTransactions 1 none
    ∧ sampleRunB.getSeqRangeTransactions 1 (some 0)
        = .ok (sampleRunB.transactions.drop ((1 : Int).toNat - 1))
    ∧ sampleRunB.getSeqRangeCommits 1 (some 0) = sampleRunB.getSeqRangeCommits 1 none
    ∧ sampleOpenS.getSeqRangeTransactions 1 (some 0)
        = sampleOpenS.getSeqRangeTransactions 1 none
    ∧ sampleOpenS.getSeqRangeTransactions 1 (some 0)
        = .ok (sampleOpenS.transactions.drop ((1 : Int).toNat - 1)) :=
  zero_finish_as_omitted sampleRunB sampleOpenS rfl rfl 1 (by decide)

/-- Reachability of the concrete run `open(); append(7); append(8); commit()`. -/
theorem sampleRunB_reachable : MemoryBatchedTransactionLog.Reachable sampleRunB :=
  MemoryBatchedTransactionLog.Reachable.commitStep 9
    (MemoryBatchedTransactionLog.Reachable.appendStep 6 8
      (MemoryBatchedTransactionLog.Reachable.appendStep 5 7
        (MemoryBatchedTransactionLog.Reachable.openStep
          MemoryBatchedTransactionLog.Reachable.init)))

/-- C2: in every state of the batched log reachable from the initial state by
any sequence of operations, each stored commit's transaction-ID list is a
contiguous ascending run of integers whose members all lie within
[1, countTransactions], and every referenced ID resolves to a stored
committed transaction.  Quantifying over reachable states makes the invariant
preserved by every operation; the read operations are modelled as pure
functions (the source methods contain no field writes) and cannot change the
state. -/
theorem reachable_commit_ids_resolve {T : Type} (log : MemoryBatchedTransactionLog T)
    (h : MemoryBatchedTransactionLog.Reachable log) (c : Commit) (hc : c ∈ log.commits)
    (tid : Int) (htid : tid ∈ c.transactions) :
    (∃ s : Int, 1 ≤ s ∧ c.transactions = rangeInt s c.transactions.length)
    ∧ 1 ≤ tid ∧ tid ≤ (log.transactions.length : Int)
    ∧ ∃ txn, log.txnAt tid = some txn := by
  have hwf := MemoryBatchedTransactionLog.reachable_wf h
  obtain ⟨s, hs1, hs2, _⟩ := MemoryBatchedTransactionLog.wf_commit_contiguous hwf hc
  obtain ⟨hb1, hb2⟩ := MemoryBatchedTransactionLog.wf_tid_bounds hwf hc htid
  exact ⟨⟨s, hs1, hs2⟩, hb1, hb2, MemoryBatchedTransactionLog.txnAt_isSome hb1 hb2⟩

/-- Witness for C2 at the concrete reachable log: the single commit's ID list
[1, 2] is the contiguous run starting at 1 and its ID 2 resolves. -/
theorem reachable_commit_ids_resolve_witness :
    (∃ s : Int, 1 ≤ s ∧ (⟨9, [1, 2]⟩ : Commit).transactions
        = rangeInt s (⟨9, [1, 2]⟩ : Commit).transactions.length)
    ∧ 1 ≤ (2 : Int) ∧ (2 : Int) ≤ (sampleRunB.transactions.length : Int)
    ∧ ∃ txn, sampleRunB.txnAt 2 = some txn :=
  reachable_commit_ids_resolve sampleRunB sampleRunB_reachable ⟨9, [1, 2]⟩ (by decide)
    2 (by decide)

/-- C9: on any open batched log (any state, reachable or not), for every
startId ≥ 1 and every finishId, each commit taken from the requested slice is
found again by the indexOf resolution step, so getSeqRangeCommits returns a
result and never fails with InvalidCommitError. -/
theorem getSeqRangeCommits_no_invalid_commit {T : Type}
    (log : MemoryBatchedTransactionLog T) (ho : log.«open» = true)
    (startId : Int) (hs : 1 ≤ startId) (fin? : Option Int) :
    ∃ cis, log.getSeqRangeCommits startId fin? = .ok cis := by
  have hcond1 : ¬ (!log.«open») = true := by simp [ho]
  unfold MemoryBatchedTransactionLog.getSeqRangeCommits
  rw [if_neg hcond1, if_neg (by omega : ¬ startId < 1)]
  by_cases hjt : jsTruthy fin? = true
  · rw [if_pos hjt]
    exact ⟨_, MemoryBatchedTransactionLog.resolveCommits_ok_of_subset log
      (jsSlice_subset _ _ _)⟩
  · rw [if_neg hjt]
    exact ⟨_, MemoryBatchedTransactionLog.resolveCommits_ok_of_subset log
      (jsSlice_subset _ _ _)⟩

/-- Witness for C9 at a concrete open log and range. -/
theorem getSeqRangeCommits_no_invalid_commit_witness :
    ∃ cis, sampleRunB.getSeqRangeCommits 1 (some 2) = .ok cis :=
  getSeqRangeCommits_no_invalid_commit sampleRunB rfl 1 (by decide) (some 2)

/-- C4 (amended): on an open log (either variant) `getSeqRangeTransactions`
fails with the invalid-sequence-ID error when startId < 1; otherwise, when
finishId is omitted or the supplied finishId is at least 1, it returns exactly
the committed transactions whose global 1-based ID lies in [startId, finishId]
(or [startId, end] when omitted), in ID order, a finishId beyond the
collection length being clamped silently to the end (inherent in `idRange`),
and a startId beyond the collection length yielding an empty result with no
error.  (The amendment restricts a supplied finishId to be ≥ 1: a finishId of
0 is falsy and behaves as omitted, and a negative finishId indexes from the
end, per JS slice semantics, so neither denotes the inclusive range
[startId, finishId] the claim describes.) -/
theorem getSeqRangeTransactions_spec {T : Type} (lb : MemoryBatchedTransactionLog T)
    (ls : MemorySimpleTransactionLog T) (hb : lb.«open» = true) (hs : ls.«open» = true)
    (startId f g : Int) (fin? : Option Int) :
    (startId < 1 →
      lb.getSeqRangeTransactions startId fin? = .error .invalidSequenceId
      ∧ ls.getSeqRangeTransactions startId fin? = .error .invalidSequenceId)
    ∧ (1 ≤ startId →
      lb.getSeqRangeTransactions startId none
          = .ok (idRange lb.transactions startId.toNat lb.transactions.length)
      ∧ ls.getSeqRangeTransactions startId none
          = .ok (idRange ls.transactions startId.toNat ls.transactions.length)
      ∧ (1 ≤ f →
          lb.getSeqRangeTransactions startId (some f)
            = .ok (idRange lb.transactions startId.toNat f.toNat)
          ∧ ls.getSeqRangeTransactions startId (some f)
            = .ok (idRange ls.transactions startId.toNat f.toNat))
      ∧ ((lb.transactions.length : Int) < startId →
          lb.getSeqRangeTransactions startId none = .ok []
          ∧ (1 ≤ g → lb.getSeqRangeTransactions startId (some g) = .ok []))
      ∧ ((ls.transactions.length : Int) < startId →
          ls.getSeqRangeTransactions startId none = .ok []
          ∧ (1 ≤ g → ls.getSeqRangeTransactions startId (some g) = .ok []))) := by
  refine ⟨?_, ?_⟩
  · intro hlt
    constructor
    · simp [MemoryBatchedTransactionLog.getSeqRangeTransactions, hb, hlt]
    · simp [MemorySimpleTransactionLog.getSeqRangeTransactions, hs, hlt]
  · intro hge
    have hnlt : ¬ startId < 1 := by omega
    refine ⟨?_, ?_, ?_, ?_, ?_⟩
    · simp [MemoryBatchedTransactionLog.getSeqRangeTransactions, hb, hnlt, jsTruthy,
        jsSlice_none_idRange lb.transactions startId hge]
    · simp [MemorySimpleTransactionLog.getSeqRangeTransactions, hs, hnlt, jsTruthy,
        jsSlice_none_idRange ls.transactions startId hge]
    · intro hf
      have hfne : (f != 0) = true := bne_iff_ne.2 (by omega)
      constructor
      · simp [MemoryBatchedTransactionLog.getSeqRangeTransactions, hb, hnlt, jsTruthy, hfne,
          jsSlice_some_idRange lb.transactions startId f hge hf]
      · simp [MemorySimpleTransactionLog.getSeqRangeTransactions, hs, hnlt, jsTruthy, hfne,
          jsSlice_some_idRange ls.transactions startId f hge hf]
    · intro hlen
      have hout : lb.transactions.length < startId.toNat := by omega
      constructor
      · simp [MemoryBatchedTransactionLog.getSeqRangeTransactions, hb, hnlt, jsTruthy,
          jsSlice_none_idRange lb.transactions startId hge,
          idRange_nil_of_gt lb.transactions lb.transactions.length hout]
      · intro hg
        have hgne : (g != 0) = true := bne_iff_ne.2 (by omega)
        simp [MemoryBatchedTransactionLog.getSeqRangeTransactions, hb, hnlt, jsTruthy, hgne,
          jsSlice_some_idRange lb.transactions startId g hge hg,
          idRange_nil_of_gt lb.transactions g.toNat hout]
    · intro hlen
      have hout : ls.transactions.length < startId.toNat := by omega
      constructor
      · simp [MemorySimpleTransactionLog.getSeqRangeTransactions, hs, hnlt, jsTruthy,
          jsSlice_none_idRange ls.transactions startId hge,
          idRange_nil_of_gt ls.transactions ls.transactions.length hout]
      · intro hg
        have hgne : (g != 0) = true := bne_iff_ne.2 (by omega)
        simp [MemorySimpleTransactionLog.getSeqRangeTransactions, hs, hnlt, jsTruthy, hgne,
          jsSlice_some_idRange ls.transactions startId g hge hg,
          idRange_nil_of_gt ls.transactions g.toNat hout]

/-- Witness for the amended C4 at concrete logs: full range on the batched
log, explicit finish on the simple log, and an out-of-range startId. -/
theorem getSeqRangeTransactions_spec_witness :
    sampleRunB.getSeqRangeTransactions 1 none
        = .ok (idRange sampleRunB.transactions (1 : Int).toNat
            sampleRunB.transactions.length)
    ∧ sampleOpenS.getSeqRangeTransactions 1 (some 2)
        = .ok (idRange sampleOpenS.transactions (1 : Int).toNat (2 : Int).toNat)
    ∧ sampleOpenS.getSeqRangeTransactions 9 none = .ok [] :=
  ⟨((getSeqRangeTransactions_spec sampleRunB sampleOpenS rfl rfl 1 2 2 none).2
      (by decide)).1,
   (((getSeqRangeTransactions_spec sampleRunB sampleOpenS rfl rfl 1 2 2 none).2
      (by decide)).2.2.1 (by decide)).2,
   (((getSeqRangeTransactions_spec sampleRunB sampleOpenS rfl rfl 9 2 2 none).2
      (by decide)).2.2.2.2 (by decide)).1⟩

/-- Counterexample to C4 as stated: at startId = 1 and finishId = 0 the
inclusive range [1, 0] is empty, so the claim requires the empty list, but
the code treats the falsy 0 as an omitted finishId and returns the whole
collection. -/
theorem getSeqRangeTransactions_finish_zero_cx :
    sampleOpenS.getSeqRangeTransactions 1 (some 0) = .ok [⟨0, 7⟩]
    ∧ sampleOpenS.getSeqRangeTransactions 1 (some 0) ≠ .ok [] := by
  refine ⟨rfl, ?_⟩
  intro h
  rw [show sampleOpenS.getSeqRangeTransactions 1 (some 0) = .ok [⟨0, 7⟩] from rfl] at h
  exact absurd (Except.ok.inj h) (by simp)

theorem resolveCommits_take_drop_spec {T : Type} (log : MemoryBatchedTransactionLog T)
    (hwf : log.Wf) (a m k : Nat) :
    ∃ cis, log.resolveCommits ((log.commits.drop a).take m) = .ok cis
      ∧ cis.length = min (a + m) log.commits.length - a
      ∧ (k < cis.length →
          ∃ c, log.commits[a + k]? = some c
            ∧ cis[k]? = some ⟨((a + k + 1 : Nat) : Int), c.time,
                c.transactions.map log.txnAt⟩
            ∧ ∀ o ∈ c.transactions.map log.txnAt, o.isSome = true) := by
  have hsub : ∀ c ∈ (log.commits.drop a).take m, c ∈ log.commits := fun c hc =>
    List.mem_of_mem_drop (List.mem_of_mem_take hc)
  refine ⟨_, MemoryBatchedTransactionLog.resolveCommits_ok_of_subset log hsub, ?_, ?_⟩
  · rw [List.length_map, List.length_take, List.length_drop]
    omega
  · intro hk
    rw [List.length_map, List.length_take, List.length_drop] at hk
    have hkm : k < m := by omega
    have hkn : a + k < log.commits.length := by omega
    refine ⟨log.commits[a + k], List.getElem?_eq_getElem hkn, ?_, ?_⟩
    · rw [List.getElem?_map, List.getElem?_take_of_lt hkm, List.getElem?_drop,
        List.getElem?_eq_getElem hkn, Option.map_some']
      have hidx : jsIndexOf log.commits (log.commits[a + k]) = ((a + k : Nat) : Int) :=
        jsIndexOf_getElem? hwf.2.2 (List.getElem?_eq_getElem hkn)
      have hid : jsIndexOf log.commits (log.commits[a + k]) + 1
          = ((a + k + 1 : Nat) : Int) := by
        rw [hidx]
        push_cast
        ring
      unfold MemoryBatchedTransactionLog.resolveOne
      rw [hid]
      rfl
    · intro o hmem
      obtain ⟨tid, htid, rfl⟩ := List.mem_map.1 hmem
      have hcmem : log.commits[a + k] ∈ log.commits := List.getElem_mem hkn
      obtain ⟨hb1, hb2⟩ := MemoryBatchedTransactionLog.wf_tid_bounds hwf hcmem htid
      obtain ⟨txn, htxn⟩ := MemoryBatchedTransactionLog.txnAt_isSome hb1 hb2
      rw [htxn]
      rfl

/-- C3 (amended): on an open batched log in any state reachable through the
API, for every startId ≥ 1, with finishId omitted or a supplied finishId ≥ 1
(effective end `e`), getSeqRangeCommits succeeds and returns one CommitInfo
per commit whose 1-based commit ID lies in the requested range, in ID order:
the entry for the commit at 1-based position startId + k carries exactly that
position as its id, the stored commit's timestamp, and the stored transaction
records referenced by the commit's transaction IDs — resolved via
`this.transactions[tid - 1]`, i.e. the very records held in the committed
collection — in the order recorded on the commit, every resolution
succeeding.  (The amendment restricts a supplied finishId to be ≥ 1: a
finishId of 0 is falsy and behaves as omitted, and a negative finishId
indexes from the end, per JS slice semantics, so neither denotes the
inclusive range the claim describes.) -/
theorem getSeqRangeCommits_spec {T : Type} (log : MemoryBatchedTransactionLog T)
    (hr : MemoryBatchedTransactionLog.Reachable log) (ho : log.«open» = true)
    (startId : Int) (hs : 1 ≤ startId) (fin? : Option Int) (e : Nat)
    (he : (fin? = none ∧ e = log.commits.length)
      ∨ (∃ f, fin? = some f ∧ 1 ≤ f ∧ e = f.toNat)) (k : Nat) :
    ∃ cis, log.getSeqRangeCommits startId fin? = .ok cis
      ∧ cis.length = min e log.commits.length - (startId.toNat - 1)
      ∧ (k < cis.length →
          ∃ c, log.commits[startId.toNat - 1 + k]? = some c
            ∧ cis[k]? = some ⟨((startId.toNat + k : Nat) : Int), c.time,
                c.transactions.map log.txnAt⟩
            ∧ ∀ o ∈ c.transactions.map log.txnAt, o.isSome = true) := by
  have hwf := MemoryBatchedTransactionLog.reachable_wf hr
  have hcond1 : ¬ (!log.«open») = true := by simp [ho]
  have hnlt : ¬ startId < 1 := by omega
  have htadj : (startId - 1).toNat = startId.toNat - 1 := by omega
  have hpos : startId.toNat - 1 + k + 1 = startId.toNat + k := by omega
  rcases he with ⟨hfin, hee⟩ | ⟨f, hfin, hf1, hee⟩
  · subst hfin
    subst hee
    have hsl : jsSlice log.commits (startId - 1) none
        = (log.commits.drop (startId.toNat - 1)).take
            (log.commits.length - (startId.toNat - 1)) := by
      rw [jsSlice_none_eq _ _ (by omega), htadj,
        List.take_of_length_le (by rw [List.length_drop])]
    have hop : log.getSeqRangeCommits startId none
        = log.resolveCommits ((log.commits.drop (startId.toNat - 1)).take
            (log.commits.length - (startId.toNat - 1))) := by
      unfold MemoryBatchedTransactionLog.getSeqRangeCommits
      rw [if_neg hcond1, if_neg hnlt,
        if_neg (by simp [jsTruthy] : ¬ jsTruthy (none : Option Int) = true), hsl]
    obtain ⟨cis, hcis, hlen, helem⟩ := resolveCommits_take_drop_spec log hwf
      (startId.toNat - 1) (log.commits.length - (startId.toNat - 1)) k
    refine ⟨cis, by rw [hop, hcis], by rw [hlen]; omega, ?_⟩
    intro hk
    obtain ⟨c, h1, h2, h3⟩ := helem hk
    exact ⟨c, h1, by rw [h2, hpos], h3⟩
  · subst hfin
    subst hee
    have hjt : jsTruthy (some f) = true := bne_iff_ne.2 (by omega)
    have hsl : jsSlice log.commits (startId - 1) (some f)
        = (log.commits.drop (startId.toNat - 1)).take
            (f.toNat - (startId.toNat - 1)) := by
      rw [jsSlice_some_eq _ _ _ (by omega) (by omega), htadj]
    have hop : log.getSeqRangeCommits startId (some f)
        = log.resolveCommits ((log.commits.drop (startId.toNat - 1)).take
            (f.toNat - (startId.toNat - 1))) := by
      unfold MemoryBatchedTransactionLog.getSeqRangeCommits
      rw [if_neg hcond1, if_neg hnlt, if_pos hjt, hsl]
    obtain ⟨cis, hcis, hlen, helem⟩ := resolveCommits_take_drop_spec log hwf
      (startId.toNat - 1) (f.toNat - (startId.toNat - 1)) k
    refine ⟨cis, by rw [hop, hcis], by rw [hlen]; omega, ?_⟩
    intro hk
    obtain ⟨c, h1, h2, h3⟩ := helem hk
    exact ⟨c, h1, by rw [h2, hpos], h3⟩

/-- Witness for the amended C3 at the concrete reachable log, full range. -/
theorem getSeqRangeCommits_spec_witness :
    ∃ cis, sampleRunB.getSeqRangeCommits 1 none = .ok cis
      ∧ cis.length = min sampleRunB.commits.length sampleRunB.commits.length
          - ((1 : Int).toNat - 1)
      ∧ (0 < cis.length →
          ∃ c, sampleRunB.commits[(1 : Int).toNat - 1 + 0]? = some c
            ∧ cis[0]? = some ⟨(((1 : Int).toNat + 0 : Nat) : Int), c.time,
                c.transactions.map sampleRunB.txnAt⟩
            ∧ ∀ o ∈ c.transactions.map sampleRunB.txnAt, o.isSome = true) :=
  getSeqRangeCommits_spec sampleRunB sampleRunB_reachable rfl 1 (by decide) none
    sampleRunB.commits.length (Or.inl ⟨rfl, rfl⟩) 0

/-- Counterexample to C3 as stated: at startId = 1 and finishId = 0 the
requested range [1, 0] contains no commit ID, so the claim requires an empty
result, but the code treats the falsy 0 as an omitted finishId and returns
every commit from startId on. -/
theorem getSeqRangeCommits_finish_zero_cx :
    sampleRunB.getSeqRangeCommits 1 (some 0)
      = .ok [⟨1, 9, [some ⟨5, 7⟩, some ⟨6, 8⟩]⟩]
    ∧ sampleRunB.getSeqRangeCommits 1 (some 0) ≠ .ok [] := by
  refine ⟨rfl, ?_⟩
  intro h
  rw [show sampleRunB.getSeqRangeCommits 1 (some 0)
    = .ok [⟨1, 9, [some ⟨5, 7⟩, some ⟨6, 8⟩]⟩] from rfl] at h
  exact absurd (Except.ok.inj h) (by simp)

end TransactionLog
